import Mathlib

/-
Verification of the DeformingPlateDataset data pipeline
(physicsnemo/datapipes/gnn/deforming_plate_dataset.py).

Tensors are modelled as (nested) lists over exact scalars: rationals for the
affine operations and reals where a square root appears.  Machine floating
point is modelled by exact arithmetic, matching the claims stated up to
floating tolerance.  Python operations that raise are modelled as Option
valued functions returning none.
-/

namespace DPD

/-- Pointwise combination of three lists, truncating to the shortest. -/
def zipWith3 (f : α → β → γ → δ) : List α → List β → List γ → List δ
  | a :: as, b :: bs, c :: cs => f a b c :: zipWith3 f as bs cs
  | _, _, _ => []

/-- Python sequence indexing: a nonnegative index selects from the front,
a negative index counts from the back, anything out of range raises
(modelled as none). -/
def pyGet (xs : List α) (i : ℤ) : Option α :=
  if 0 ≤ i then xs.get? i.toNat
  else if 0 ≤ i + xs.length then xs.get? (i + xs.length).toNat
  else none

/-! Temporal alignment helpers (static methods drop_last, push_forward,
push_forward_diff of the dataset class).  The leading axis of the array is
the timestep axis; an element of the list is one full per-step array. -/

/-- Source line invar[0:-1]: drop the final timestep. -/
def _drop_last (invar : List α) : List α := invar.dropLast

/-- Source line invar[1:]: shift one step ahead. -/
def _push_forward (invar : List α) : List α := invar.tail

/-- Source line invar[1:] - invar[0:-1]: one-step finite difference. -/
def _push_forward_diff [Sub α] (invar : List α) : List α :=
  List.zipWith (fun a b => a - b) invar.tail invar.dropLast

/-! Normalizer (static methods normalize_node and denormalize). -/

/-- Trailing dimension, size()[-1], of a rectangular 2-D tensor given as a
list of rows. -/
def trailing_dim (t : List (List ℚ)) : ℕ := (t.getLast?.getD []).length

/-- Static method normalize_node: raises an AssertionError (none) unless the
trailing dimension of the input equals the trailing dimension of both mu and
std; otherwise broadcasts mu and std over the leading axis and returns
(invar - mu) / std. -/
def normalize_node (invar : List (List ℚ)) (mu std : List ℚ) :
    Option (List (List ℚ)) :=
  if trailing_dim invar ≠ mu.length ∨ trailing_dim invar ≠ std.length then
    none
  else
    some (invar.map (fun r => zipWith3 (fun x m s => (x - m) / s) r mu std))

/-- Torch broadcasting of a binary operation between one row of the input
and a 1-D statistics tensor: equal lengths combine pointwise, a length-one
operand is stretched, and incompatible lengths raise (none). -/
def bcast (f : ℚ → ℚ → ℚ) (r s : List ℚ) : Option (List ℚ) :=
  if r.length = s.length then some (List.zipWith f r s)
  else if s.length = 1 then some (r.map (fun x => f x s.headI))
  else if r.length = 1 then some (s.map (fun y => f r.headI y))
  else none

/-- Map a fallible function over a list, failing if any element fails. -/
def mapOpt (f : α → Option β) : List α → Option (List β)
  | [] => some []
  | a :: as => do
    let b ← f a
    let bs ← mapOpt f as
    pure (b :: bs)

/-- Static method denormalize: invar * std + mu with no explicit shape
check, only the implicit torch broadcasting rules applied row by row. -/
def denormalize (invar : List (List ℚ)) (mu std : List ℚ) :
    Option (List (List ℚ)) :=
  mapOpt (fun r => do
    let a ← bcast (fun x y => x * y) r std
    bcast (fun x y => x + y) a mu) invar

/-! Node-type encoder (static method one_hot_encode) and the rollout mask
(static method get_rollout_mask). -/

/-- Mapping loop of the encoder: codes 0, 1, 3 map to dense indices 0, 1, 2
and every other code keeps the fill value -1, which in the uint8 buffer of
the source is the value 255. -/
def map_code (c : ℕ) : ℕ :=
  if c = 0 then 0 else if c = 1 then 1 else if c = 3 then 2 else 255

/-- One-hot row over 3 classes, F.one_hot with num_classes 3. -/
def one_hot3 (i : ℕ) : List ℕ :=
  [if i = 0 then 1 else 0, if i = 1 then 1 else 0, if i = 2 then 1 else 0]

/-- Static method one_hot_encode: map the raw codes, fail (none) if any
code was left at the fill value (the source raises either its own
ValueError or, failing that, the range error of F.one_hot, since 255 is
never below num_classes = 3), else one-hot encode the dense indices. -/
def _one_hot_encode (codes : List ℕ) : Option (List (List ℕ)) :=
  let mapped := codes.map map_code
  if mapped.any (fun m => m = 255) then none
  else some (mapped.map one_hot3)

/-- Static method get_rollout_mask: node participates in rollout iff its
raw type code is 0 or 1. -/
def _get_rollout_mask (node_type : List ℕ) : List Bool :=
  node_type.map (fun c => c = 0 || c = 1)

/-! Topology builder (static methods cell_to_adj and create_graph).
A tetrahedral cell is a 4-tuple of node indices; the graph edge list is a
list of (src, dst) pairs in COO form. -/

/-- A tetrahedral cell: 4 node indices. -/
structure Cell where
  v0 : ℕ
  v1 : ℕ
  v2 : ℕ
  v3 : ℕ
deriving DecidableEq, Repr

/-- Local vertex lookup cells[i][a] for a in 0..3. -/
def cell_vertex (c : Cell) : ℕ → ℕ
  | 0 => c.v0
  | 1 => c.v1
  | 2 => c.v2
  | _ => c.v3

/-- The 6 local vertex pairs of a tetrahedron, as in the source. -/
def edge_indices : List (ℕ × ℕ) := [(0,1), (0,2), (0,3), (1,2), (1,3), (2,3)]

/-- Static method cell_to_adj: for each tetrahedron generate all 6 edges,
pairing the src and dst lists of the source into one COO list. -/
def cell_to_adj (cells : List Cell) : List (ℕ × ℕ) :=
  cells.flatMap (fun c =>
    edge_indices.map (fun ab => (cell_vertex c ab.1, cell_vertex c ab.2)))

/-- The reverse-augmented edge list built inside dgl.to_bidirected before
it collapses duplicates: every edge plus its mirror. -/
def add_reverse (edges : List (ℕ × ℕ)) : List (ℕ × ℕ) :=
  edges ++ edges.map (fun e => (e.2, e.1))

/-- Static method create_graph: dgl.to_bidirected of the COO graph, i.e.
the deduplicated bidirectional edge set. -/
def create_graph (edges : List (ℕ × ℕ)) : List (ℕ × ℕ) :=
  (add_reverse edges).dedup

/-! Edge features (static method add_edge_features).  Node positions are
rows of rational coordinates; the feature of a directed edge (u, v) is the
relative displacement pos(u) - pos(v) followed by its Euclidean norm.
Only the square root at the end leaves the rationals. -/

/-- Row of the position matrix for one node index. -/
def pos_row (pos : List (List ℚ)) (i : ℕ) : List ℚ := (pos.get? i).getD []

/-- Relative displacement pos[row] - pos[col] for one directed edge. -/
def disp (pos : List (List ℚ)) (u v : ℕ) : List ℚ :=
  List.zipWith (fun a b => a - b) (pos_row pos u) (pos_row pos v)

/-- Sum of squares of a displacement row, the argument of the norm. -/
def sqr_sum (d : List ℚ) : ℚ := (d.map (fun x => x ^ 2)).sum

/-- Euclidean norm of a displacement row, torch.linalg.norm on the last
axis. -/
noncomputable def disp_norm (d : List ℚ) : ℝ := Real.sqrt (sqr_sum d)

/-- Feature row of one directed edge: displacement channels then the norm
channel. -/
noncomputable def edge_feature (pos : List (List ℚ)) (u v : ℕ) : List ℝ :=
  (disp pos u v).map (fun x => (x : ℝ)) ++ [disp_norm (disp pos u v)]

/-- Static method add_edge_features: the per-edge feature matrix attached
as edata x, one row per directed edge of the graph. -/
noncomputable def add_edge_features (edges : List (ℕ × ℕ)) (pos : List (List ℚ)) :
    List (List ℝ) :=
  edges.map (fun e => edge_feature pos e.1 e.2)

/-! Streaming statistics engine (methods get_edge_stats and
get_node_stats).  Statistics are computed independently per feature
channel; a trajectory is modelled by the list of this channel across all
its (timestep, node) elements, and the dataset by the list of its
trajectories. -/

/-- Mean over the (timestep, node) axes of one trajectory, torch.mean. -/
def traj_mean (xs : List ℚ) : ℚ := xs.sum / xs.length

/-- Accumulation loop of the stats methods: each trajectory adds its own
mean divided by num_samples. -/
def stats_mean (num_samples : ℕ) (trajs : List (List ℚ)) : ℚ :=
  trajs.foldl (fun acc xs => acc + traj_mean xs / num_samples) 0

/-- Accumulation loop for the mean of squares, same weighting. -/
def stats_meansqr (num_samples : ℕ) (trajs : List (List ℚ)) : ℚ :=
  trajs.foldl (fun acc xs => acc + traj_mean (xs.map (fun x => x ^ 2)) / num_samples) 0

/-- Variance expression inside the square root of the stats methods. -/
def stats_var (num_samples : ℕ) (trajs : List (List ℚ)) : ℚ :=
  stats_meansqr num_samples trajs - (stats_mean num_samples trajs) ^ 2

/-- Final standard deviation sqrt(meansqr - mean^2) of the stats methods. -/
noncomputable def stats_std (num_samples : ℕ) (trajs : List (List ℚ)) : ℝ :=
  Real.sqrt (stats_var num_samples trajs)

/-! Dataset model.  The fields are the state after the constructor has run:
per-trajectory graphs, one-hot node types, node feature and target tensors,
and, for non-train splits, the retained mesh positions, cells and rollout
masks.  Tensors indexed (trajectory, timestep, node, channel) appear as
nested lists in that order. -/

/-- DGL graph as far as this pipeline touches it: edge list, edge data and
the per-sample node data written by the index lookup. -/
structure Graph where
  edges : List (ℕ × ℕ)
  edata_x : List (List ℚ)
  ndata_x : List (List ℚ)
  ndata_y : List (List ℚ)
  ndata_mesh_pos : Option (List (List ℚ))
deriving DecidableEq, Repr

/-- Value returned by one index lookup: a bare graph on the train split, a
(graph, cells, rollout mask) triple on the other splits. -/
inductive Sample where
  | trainSample (g : Graph)
  | evalSample (g : Graph) (cells : List Cell) (mask : List Bool)
deriving DecidableEq, Repr

/-- Constructed dataset state. -/
structure Dataset where
  split : String
  num_samples : ℕ
  num_steps : ℕ
  graphs : List Graph
  node_type : List (List (List ℚ))
  raw_node_type : List (List ℕ)
  node_features_world_pos : List (List (List (List ℚ)))
  node_targets_world_pos : List (List (List (List ℚ)))
  node_targets_stress : List (List (List (List ℚ)))
  mesh_pos : List (List (List ℚ))
  cells : List (List Cell)
  rollout_mask : List (List Bool)

/-- Value self.length computed in the constructor and returned by len. -/
def dataset_length (num_samples num_steps : ℕ) : ℕ :=
  num_samples * (num_steps - 1)

/-- Method len of the dataset. -/
def len (d : Dataset) : ℕ := dataset_length d.num_samples d.num_steps

/-- Index resolution of getitem: graph index idx // (num_steps - 1) and
time step index idx % (num_steps - 1), with Python floor division and
nonnegative remainder (the divisor is positive). -/
def resolve (num_steps : ℕ) (idx : ℤ) : ℤ × ℤ :=
  (idx / ((num_steps : ℤ) - 1), idx % ((num_steps : ℤ) - 1))

/-- Method getitem: resolve the flat index, gather the per-sample node
feature and target tensors, attach them to the shared graph of that
trajectory, and return the split-dependent sample.  Any out-of-range list
access raises an IndexError, modelled as none. -/
def getItem (d : Dataset) (idx : ℤ) : Option Sample := do
  let gidx := (resolve d.num_steps idx).1
  let tidx := (resolve d.num_steps idx).2
  let graph ← pyGet d.graphs gidx
  let nf ← pyGet d.node_features_world_pos gidx
  let fw ← pyGet nf tidx
  let nty ← pyGet d.node_type gidx
  let ntw ← pyGet d.node_targets_world_pos gidx
  let tw ← pyGet ntw tidx
  let nts ← pyGet d.node_targets_stress gidx
  let ts ← pyGet nts tidx
  let node_features := List.zipWith (fun a b => a ++ b) fw nty
  let node_targets := List.zipWith (fun a b => a ++ b) tw ts
  let graph := { graph with ndata_x := node_features, ndata_y := node_targets }
  if d.split = "train" then
    pure (Sample.trainSample graph)
  else do
    let mp ← pyGet d.mesh_pos gidx
    let cs ← pyGet d.cells gidx
    let rm ← pyGet d.rollout_mask gidx
    pure (Sample.evalSample { graph with ndata_mesh_pos := some mp } cs rm)

/-- Reference version of the lookup with the trajectory and step already
resolved to natural numbers; used to state which trajectory and step a
flat index reaches. -/
def assemble (d : Dataset) (g t : ℕ) : Option Sample := do
  let graph ← d.graphs.get? g
  let nf ← d.node_features_world_pos.get? g
  let fw ← nf.get? t
  let nty ← d.node_type.get? g
  let ntw ← d.node_targets_world_pos.get? g
  let tw ← ntw.get? t
  let nts ← d.node_targets_stress.get? g
  let ts ← nts.get? t
  let node_features := List.zipWith (fun a b => a ++ b) fw nty
  let node_targets := List.zipWith (fun a b => a ++ b) tw ts
  let graph := { graph with ndata_x := node_features, ndata_y := node_targets }
  if d.split = "train" then
    pure (Sample.trainSample graph)
  else do
    let mp ← d.mesh_pos.get? g
    let cs ← d.cells.get? g
    let rm ← d.rollout_mask.get? g
    pure (Sample.evalSample { graph with ndata_mesh_pos := some mp } cs rm)

/-- Well-formedness of the constructed state: every per-trajectory list
has num_samples entries (the non-train-only lists when that split needs
them), and every per-trajectory feature or target tensor has
num_steps - 1 timesteps. -/
def WF (d : Dataset) : Prop :=
  d.graphs.length = d.num_samples ∧
  d.node_features_world_pos.length = d.num_samples ∧
  d.node_type.length = d.num_samples ∧
  d.node_targets_world_pos.length = d.num_samples ∧
  d.node_targets_stress.length = d.num_samples ∧
  (d.split ≠ "train" →
    d.mesh_pos.length = d.num_samples ∧ d.cells.length = d.num_samples ∧
      d.rollout_mask.length = d.num_samples) ∧
  (∀ nf ∈ d.node_features_world_pos, nf.length = d.num_steps - 1) ∧
  (∀ nt ∈ d.node_targets_world_pos, nt.length = d.num_steps - 1) ∧
  (∀ nt ∈ d.node_targets_stress, nt.length = d.num_steps - 1)

instance (d : Dataset) : Decidable (WF d) := by
  unfold WF; infer_instance

/-- Graph with no edges and no data, used as a default value only. -/
def default_graph : Graph := ⟨[], [], [], [], none⟩

/-- The graph object returned for trajectory g at step t: the stored
per-trajectory graph with the concatenated node features and targets of
that step written into its node data. -/
def sample_graph (d : Dataset) (g t : ℕ) : Graph :=
  { d.graphs.getD g default_graph with
    ndata_x := List.zipWith (fun a b => a ++ b)
      ((d.node_features_world_pos.getD g []).getD t []) (d.node_type.getD g []),
    ndata_y := List.zipWith (fun a b => a ++ b)
      ((d.node_targets_world_pos.getD g []).getD t [])
      ((d.node_targets_stress.getD g []).getD t []) }

/-- Concrete train-split dataset: one trajectory, two steps, one node. -/
def dtest : Dataset :=
  { split := "train"
    num_samples := 1
    num_steps := 2
    graphs := [default_graph]
    node_type := [[[1, 0, 0]]]
    raw_node_type := [[0]]
    node_features_world_pos := [[[[0, 0, 0]]]]
    node_targets_world_pos := [[[[0, 0, 0]]]]
    node_targets_stress := [[[[0]]]]
    mesh_pos := []
    cells := []
    rollout_mask := [] }

/-- Concrete eval-split dataset: one trajectory, two steps, two nodes with
raw type codes 0 and 3. -/
def dtest_eval : Dataset :=
  { split := "eval"
    num_samples := 1
    num_steps := 2
    graphs := [default_graph]
    node_type := [[[1, 0, 0], [0, 0, 1]]]
    raw_node_type := [[0, 3]]
    node_features_world_pos := [[[[0, 0, 0], [1, 1, 1]]]]
    node_targets_world_pos := [[[[0, 0, 0], [1, 1, 1]]]]
    node_targets_stress := [[[[0], [1]]]]
    mesh_pos := [[[0, 0, 0], [1, 1, 1]]]
    cells := [[⟨0, 1, 1, 1⟩]]
    rollout_mask := [[true, false]] }

/-! Helper lemmas. -/

lemma get?_eq_some_getD (xs : List α) (n : ℕ) (x : α) (h : n < xs.length) :
    xs.get? n = some (xs.getD n x) := by
  simp [List.get?_eq_getElem?, List.getElem?_eq_getElem h]

lemma zipWith3_length (f : α → β → γ → δ) (as : List α) (bs : List β) (cs : List γ) :
    (zipWith3 f as bs cs).length = min (min as.length bs.length) cs.length := by
  induction as generalizing bs cs with
  | nil => simp [zipWith3]
  | cons a as ih =>
    cases bs with
    | nil => simp [zipWith3]
    | cons b bs =>
      cases cs with
      | nil => simp [zipWith3]
      | cons c cs => simp [zipWith3, ih]; omega

lemma normalize_row_roundtrip (r mu std : List ℚ) (hr : r.length = mu.length)
    (hms : mu.length = std.length) (hs : ∀ s ∈ std, s ≠ 0) :
    List.zipWith (fun x y => x + y)
      (List.zipWith (fun x y => x * y)
        (zipWith3 (fun x m s => (x - m) / s) r mu std) std) mu = r := by
  induction r generalizing mu std with
  | nil => simp [zipWith3]
  | cons x xs ih =>
    cases mu with
    | nil => simp at hr
    | cons m ms =>
      cases std with
      | nil => simp at hms
      | cons s ss =>
        have hs0 : s ≠ 0 := hs s (by simp)
        simp only [zipWith3, List.zipWith_cons_cons]
        rw [div_mul_cancel₀ _ hs0, sub_add_cancel,
          ih ms ss (by simpa using hr) (by simpa using hms)
            (fun z hz => hs z (by simp [hz]))]

lemma denormalize_row_of_normalized (r mu std : List ℚ) (hr : r.length = mu.length)
    (hms : mu.length = std.length) (hs : ∀ s ∈ std, s ≠ 0) :
    (do
      let a ← bcast (fun x y => x * y)
        (zipWith3 (fun x m s => (x - m) / s) r mu std) std
      bcast (fun x y => x + y) a mu) = some r := by
  have hlen : (zipWith3 (fun x m s => (x - m) / s) r mu std).length = std.length := by
    rw [zipWith3_length]; omega
  rw [bcast, if_pos hlen]
  show bcast (fun x y => x + y)
      (List.zipWith (fun x y => x * y)
        (zipWith3 (fun x m s => (x - m) / s) r mu std) std) mu = some r
  rw [bcast, if_pos (by rw [List.length_zipWith]; omega)]
  exact congrArg some (normalize_row_roundtrip r mu std hr hms hs)

lemma denormalize_normalize (invar : List (List ℚ)) (mu std : List ℚ)
    (hr : ∀ r ∈ invar, r.length = mu.length) (hms : mu.length = std.length)
    (hs : ∀ s ∈ std, s ≠ 0) :
    denormalize (invar.map (fun r => zipWith3 (fun x m s => (x - m) / s) r mu std))
      mu std = some invar := by
  induction invar with
  | nil => rfl
  | cons r rs ih =>
    have hrow := denormalize_row_of_normalized r mu std (hr r (by simp)) hms hs
    have htail := ih (fun z hz => hr z (by simp [hz]))
    rw [denormalize] at htail ⊢
    simp only [List.map_cons, mapOpt, hrow, htail]
    rfl

lemma mapOpt_some_of_forall {f : α → Option β} {l : List α}
    (h : ∀ a ∈ l, ∃ b, f a = some b) : ∃ bs, mapOpt f l = some bs := by
  induction l with
  | nil => exact ⟨[], rfl⟩
  | cons a as ih =>
    obtain ⟨b, hb⟩ := h a (by simp)
    obtain ⟨bs, hbs⟩ := ih (fun x hx => h x (by simp [hx]))
    exact ⟨b :: bs, by simp [mapOpt, hb, hbs]⟩

end DPD

namespace DPD

/-- C3: for every trajectory array of num_steps steps and every timestep t
with t + 1 < num_steps, the derived features satisfy
features.world_pos[t] = world_pos[t] (drop_last),
the shifted array satisfies push_forward(a)[t] = a[t+1] (so
targets.stress[t] = stress[t+1]), and the finite-difference array satisfies
push_forward_diff(a)[t] = a[t+1] - a[t] (so
targets.world_pos[t] = world_pos[t+1] - world_pos[t]).  The cast to
floating point of the source is modelled by exact arithmetic. -/
theorem C3_temporal_alignment {α} [Sub α] (l : List α) (t : ℕ)
    (h : t + 1 < l.length) :
    (_drop_last l).get? t = l.get? t ∧
    (_push_forward l).get? t = l.get? (t + 1) ∧
    (_push_forward_diff l).get? t =
      (l.get? (t + 1)).bind fun a => (l.get? t).map fun b => a - b := by
  refine ⟨?_, ?_, ?_⟩
  · rw [_drop_last, List.get?_eq_getElem?, List.get?_eq_getElem?,
      List.getElem?_dropLast, if_pos (by omega)]
  · rw [_push_forward, List.get?_eq_getElem?, List.get?_eq_getElem?,
      List.getElem?_tail]
  · rw [_push_forward_diff, List.get?_eq_getElem?, List.getElem?_zipWith',
      List.getElem?_tail, List.getElem?_dropLast, if_pos (by omega),
      List.get?_eq_getElem?, List.get?_eq_getElem?]
    cases l[t + 1]? <;> simp

/-- Witness for C3 at the concrete trajectory [1, 4, 9] and t = 1. -/
theorem C3_temporal_alignment_witness :
    (1 + 1 < ([(1 : ℤ), 4, 9]).length) ∧
    ((_drop_last [(1 : ℤ), 4, 9]).get? 1 = ([(1 : ℤ), 4, 9]).get? 1 ∧
     (_push_forward [(1 : ℤ), 4, 9]).get? 1 = ([(1 : ℤ), 4, 9]).get? 2 ∧
     (_push_forward_diff [(1 : ℤ), 4, 9]).get? 1 =
       (([(1 : ℤ), 4, 9]).get? 2).bind fun a =>
         (([(1 : ℤ), 4, 9]).get? 1).map fun b => a - b) :=
  ⟨by decide, C3_temporal_alignment [(1 : ℤ), 4, 9] 1 (by decide)⟩

/-- C4: the normalization round trip is the identity.  For every
rectangular tensor whose trailing dimension matches that of the statistics
and whose std is nonzero in every channel, normalize_node succeeds and
denormalize maps its output back to the input exactly. -/
theorem C4_normalize_roundtrip (invar : List (List ℚ)) (mu std : List ℚ)
    (htd : trailing_dim invar = mu.length) (htd2 : trailing_dim invar = std.length)
    (hrect : ∀ r ∈ invar, r.length = mu.length) (hs : ∀ s ∈ std, s ≠ 0) :
    ∃ y, normalize_node invar mu std = some y ∧ denormalize y mu std = some invar := by
  refine ⟨invar.map (fun r => zipWith3 (fun x m s => (x - m) / s) r mu std), ?_, ?_⟩
  · rw [normalize_node, if_neg]
    push_neg
    exact ⟨htd, htd2⟩
  · exact denormalize_normalize invar mu std hrect (htd.symm.trans htd2) hs

/-- Witness for C4 at invar = [[5]], mu = [1], std = [2]. -/
theorem C4_normalize_roundtrip_witness :
    (∀ s ∈ [(2 : ℚ)], s ≠ 0) ∧
    ∃ y, normalize_node [[(5 : ℚ)]] [1] [2] = some y ∧
      denormalize y [1] [2] = some [[(5 : ℚ)]] :=
  ⟨by norm_num,
    C4_normalize_roundtrip [[(5 : ℚ)]] [1] [2] rfl rfl (by simp) (by norm_num)⟩

/-- C5 counterexample: the claim says denormalize fails with a
shape-mismatch error whenever the trailing dimension of the input differs
from that of mean and std.  At input [[1, 2]] with mean [5] and std [2]
the trailing dimensions differ (2 against 1), yet denormalize succeeds and
returns [[7, 9]] by broadcasting the single-channel statistics. -/
theorem C5_denormalize_unchecked_counterexample :
    trailing_dim [[(1 : ℚ), 2]] ≠ ([(5 : ℚ)]).length ∧
    denormalize [[(1 : ℚ), 2]] [5] [2] = some [[7, 9]] := by
  constructor
  · simp [trailing_dim]
  · norm_num [denormalize, bcast, mapOpt]

/-- C5 amended: only normalize_node is shape-checked; it fails exactly
when the trailing dimension of the input differs from that of mean or std
and succeeds when they all agree.  denormalize performs no shape check of
its own: it succeeds whenever torch broadcasting applies, in particular
whenever the trailing dimensions all agree (and, as the counterexample
shows, also when the statistics have trailing dimension one). -/
theorem C5_shape_check (invar : List (List ℚ)) (mu std : List ℚ)
    (hrect : ∀ r ∈ invar, r.length = trailing_dim invar) :
    (normalize_node invar mu std = none ↔
      trailing_dim invar ≠ mu.length ∨ trailing_dim invar ≠ std.length) ∧
    (trailing_dim invar = mu.length → trailing_dim invar = std.length →
      ∃ y, denormalize invar mu std = some y) := by
  constructor
  · unfold normalize_node
    split_ifs with h <;> simp [h]
  · intro hmu hstd
    apply mapOpt_some_of_forall
    intro r hrmem
    have hlen : r.length = std.length := (hrect r hrmem).trans hstd
    rw [bcast, if_pos hlen]
    refine ⟨List.zipWith (fun x y => x + y)
      (List.zipWith (fun x y => x * y) r std) mu, ?_⟩
    show bcast (fun x y => x + y) (List.zipWith (fun x y => x * y) r std) mu = _
    rw [bcast, if_pos (by rw [List.length_zipWith]; omega)]

/-- Witness for C5 amended at invar = [[1, 2], [3, 4]], mu = [0, 1],
std = [1, 2]. -/
theorem C5_shape_check_witness :
    (∀ r ∈ [[(1 : ℚ), 2], [3, 4]], r.length = trailing_dim [[(1 : ℚ), 2], [3, 4]]) ∧
    ((normalize_node [[(1 : ℚ), 2], [3, 4]] [0, 1] [1, 2] = none ↔
        trailing_dim [[(1 : ℚ), 2], [3, 4]] ≠ ([(0 : ℚ), 1]).length ∨
        trailing_dim [[(1 : ℚ), 2], [3, 4]] ≠ ([(1 : ℚ), 2]).length) ∧
      (trailing_dim [[(1 : ℚ), 2], [3, 4]] = ([(0 : ℚ), 1]).length →
        trailing_dim [[(1 : ℚ), 2], [3, 4]] = ([(1 : ℚ), 2]).length →
        ∃ y, denormalize [[(1 : ℚ), 2], [3, 4]] [0, 1] [1, 2] = some y)) :=
  ⟨by simp [trailing_dim],
    C5_shape_check [[(1 : ℚ), 2], [3, 4]] [0, 1] [1, 2] (by simp [trailing_dim])⟩

/-- C6: on codes drawn from the set 0, 1, 3 the encoder succeeds with a
3-category one-hot encoding whose rows each sum to one (and the mapping
sends 0, 1, 3 to dense indices 0, 1, 2, as the concrete conjunct shows);
on any input containing a code outside this set the encoder fails. -/
theorem C6_one_hot_encoder (codes : List ℕ) :
    ((∀ c ∈ codes, c = 0 ∨ c = 1 ∨ c = 3) →
      ∃ rows, _one_hot_encode codes = some rows ∧ rows.length = codes.length ∧
        ∀ r ∈ rows, r.sum = 1) ∧
    ((∃ c ∈ codes, ¬(c = 0 ∨ c = 1 ∨ c = 3)) → _one_hot_encode codes = none) ∧
    _one_hot_encode [0, 1, 3] = some [[1, 0, 0], [0, 1, 0], [0, 0, 1]] := by
  refine ⟨?_, ?_, by decide⟩
  · intro hall
    have hnone : (codes.map map_code).any (fun m => m = 255) = false := by
      rw [List.any_eq_false]
      intro m hm
      obtain ⟨c, hc, rfl⟩ := List.mem_map.mp hm
      rcases hall c hc with rfl | rfl | rfl <;> decide
    refine ⟨(codes.map map_code).map one_hot3, ?_, by simp, ?_⟩
    · simp [_one_hot_encode, hnone]
    · intro r hr
      obtain ⟨m, hm, rfl⟩ := List.mem_map.mp hr
      obtain ⟨c, hc, rfl⟩ := List.mem_map.mp hm
      rcases hall c hc with rfl | rfl | rfl <;> decide
  · rintro ⟨c, hc, hbad⟩
    have h255 : map_code c = 255 := by
      rw [map_code, if_neg (fun h => hbad (Or.inl h)),
        if_neg (fun h => hbad (Or.inr (Or.inl h))),
        if_neg (fun h => hbad (Or.inr (Or.inr h)))]
    have hany : (codes.map map_code).any (fun m => m = 255) = true :=
      List.any_eq_true.mpr ⟨map_code c, List.mem_map.mpr ⟨c, hc, rfl⟩, by simp [h255]⟩
    simp [_one_hot_encode, hany]

/-- Witness for C6: valid codes [0, 1, 3] encode with unit row sums, and
the out-of-set code 7 fails. -/
theorem C6_one_hot_encoder_witness :
    (∀ c ∈ [0, 1, 3], c = 0 ∨ c = 1 ∨ c = 3) ∧
    (∃ rows, _one_hot_encode [0, 1, 3] = some rows ∧ rows.length = ([0, 1, 3]).length ∧
      ∀ r ∈ rows, r.sum = 1) ∧
    _one_hot_encode [7] = none :=
  ⟨by decide, (C6_one_hot_encoder [0, 1, 3]).1 (by decide),
    (C6_one_hot_encoder [7]).2.1 (by decide)⟩

lemma sum_map_const_nat (l : List α) (k : ℕ) :
    (l.map (fun _ => k)).sum = k * l.length := by
  induction l with
  | nil => simp
  | cons a as ih => simp [ih]; ring

lemma cell_to_adj_length (cells : List Cell) :
    (cell_to_adj cells).length = 6 * cells.length := by
  rw [cell_to_adj, List.length_flatMap]
  have hmap : cells.map (List.length ∘ fun c =>
        edge_indices.map (fun ab => (cell_vertex c ab.1, cell_vertex c ab.2))) =
      cells.map (fun _ => 6) := by
    apply List.map_congr_left
    intro c _
    simp [Function.comp, edge_indices]
  rw [hmap, sum_map_const_nat]

lemma mem_create_graph_iff {edges : List (ℕ × ℕ)} {e : ℕ × ℕ} :
    e ∈ create_graph edges ↔ e ∈ edges ∨ (e.2, e.1) ∈ edges := by
  unfold create_graph add_reverse
  rw [List.mem_dedup, List.mem_append, List.mem_map]
  constructor
  · rintro (h | ⟨a, ha, rfl⟩)
    · exact Or.inl h
    · right; simpa using ha
  · rintro (h | h)
    · exact Or.inl h
    · exact Or.inr ⟨(e.2, e.1), h, rfl⟩

/-- C7: the topology builder produces exactly 12 times num_cells directed
edges before the bidirectional deduplication collapses them (6 per cell
from cell_to_adj, doubled by the mirror pass of to_bidirected), the final
deduplicated graph contains the mirror of each of its directed edges, and
it covers both orientations of all 6 vertex pairs of every tetrahedron. -/
theorem C7_topology_builder (cells : List Cell) :
    (add_reverse (cell_to_adj cells)).length = 12 * cells.length ∧
    (∀ e ∈ create_graph (cell_to_adj cells),
      (e.2, e.1) ∈ create_graph (cell_to_adj cells)) ∧
    (∀ c ∈ cells, ∀ ab ∈ edge_indices,
      (cell_vertex c ab.1, cell_vertex c ab.2) ∈ create_graph (cell_to_adj cells) ∧
      (cell_vertex c ab.2, cell_vertex c ab.1) ∈ create_graph (cell_to_adj cells)) := by
  refine ⟨?_, ?_, ?_⟩
  · rw [add_reverse, List.length_append, List.length_map, cell_to_adj_length]
    omega
  · intro e he
    rw [mem_create_graph_iff] at he ⊢
    simpa using he.symm
  · intro c hc ab hab
    have hmem : (cell_vertex c ab.1, cell_vertex c ab.2) ∈ cell_to_adj cells :=
      List.mem_flatMap.mpr ⟨c, hc, List.mem_map.mpr ⟨ab, hab, rfl⟩⟩
    constructor
    · exact mem_create_graph_iff.mpr (Or.inl hmem)
    · exact mem_create_graph_iff.mpr (Or.inr hmem)

/-- Witness for C7 at the degenerate single-cell array [[0, 1, 2, 2]]. -/
theorem C7_topology_builder_witness :
    (add_reverse (cell_to_adj [⟨0, 1, 2, 2⟩])).length = 12 * 1 ∧
    (0, 1) ∈ create_graph (cell_to_adj [⟨0, 1, 2, 2⟩]) ∧
    (1, 0) ∈ create_graph (cell_to_adj [⟨0, 1, 2, 2⟩]) :=
  ⟨(C7_topology_builder [⟨0, 1, 2, 2⟩]).1,
    ((C7_topology_builder [⟨0, 1, 2, 2⟩]).2.2 ⟨0, 1, 2, 2⟩ (by decide)
      (0, 1) (by decide)).1,
    ((C7_topology_builder [⟨0, 1, 2, 2⟩]).2.2 ⟨0, 1, 2, 2⟩ (by decide)
      (0, 1) (by decide)).2⟩

lemma zipWith_sub_antisymm (xs ys : List ℚ) :
    List.zipWith (fun a b => a - b) ys xs =
      (List.zipWith (fun a b => a - b) xs ys).map (fun x => -x) := by
  induction xs generalizing ys with
  | nil => cases ys <;> simp
  | cons x xs ih =>
    cases ys with
    | nil => simp
    | cons y ys => simp [ih ys, neg_sub]

lemma sqr_sum_neg (d : List ℚ) : sqr_sum (d.map (fun x => -x)) = sqr_sum d := by
  unfold sqr_sum
  rw [List.map_map]
  congr 1
  apply List.map_congr_left
  intro x _
  simp [Function.comp, neg_sq]

/-- C10: every directed edge of a graph built by create_graph has its
mirror edge in the graph; both feature rows are produced by
add_edge_features; the displacement channels of the mirror edge are the
exact negations of those of the edge, and the norm channel is equal on
both and nonnegative. -/
theorem C10_edge_feature_antisymmetry (edges : List (ℕ × ℕ))
    (pos : List (List ℚ)) (u v : ℕ) (h : (u, v) ∈ create_graph edges) :
    (v, u) ∈ create_graph edges ∧
    edge_feature pos u v ∈ add_edge_features (create_graph edges) pos ∧
    edge_feature pos v u ∈ add_edge_features (create_graph edges) pos ∧
    disp pos v u = (disp pos u v).map (fun x => -x) ∧
    disp_norm (disp pos v u) = disp_norm (disp pos u v) ∧
    0 ≤ disp_norm (disp pos u v) := by
  have hvu : (v, u) ∈ create_graph edges := by
    rw [mem_create_graph_iff] at h ⊢
    simpa using h.symm
  have hanti : disp pos v u = (disp pos u v).map (fun x => -x) :=
    zipWith_sub_antisymm (pos_row pos u) (pos_row pos v)
  refine ⟨hvu, ?_, ?_, hanti, ?_, Real.sqrt_nonneg _⟩
  · exact List.mem_map.mpr ⟨(u, v), h, rfl⟩
  · exact List.mem_map.mpr ⟨(v, u), hvu, rfl⟩
  · rw [disp_norm, disp_norm, hanti, sqr_sum_neg]

/-- Witness for C10 at edges [(0, 1)] and positions [[0,0,0], [1,2,2]]. -/
theorem C10_edge_feature_antisymmetry_witness :
    ((0, 1) ∈ create_graph [(0, 1)]) ∧
    ((1, 0) ∈ create_graph [(0, 1)] ∧
     edge_feature [[(0 : ℚ), 0, 0], [1, 2, 2]] 0 1 ∈
       add_edge_features (create_graph [(0, 1)]) [[(0 : ℚ), 0, 0], [1, 2, 2]] ∧
     edge_feature [[(0 : ℚ), 0, 0], [1, 2, 2]] 1 0 ∈
       add_edge_features (create_graph [(0, 1)]) [[(0 : ℚ), 0, 0], [1, 2, 2]] ∧
     disp [[(0 : ℚ), 0, 0], [1, 2, 2]] 1 0 =
       (disp [[(0 : ℚ), 0, 0], [1, 2, 2]] 0 1).map (fun x => -x) ∧
     disp_norm (disp [[(0 : ℚ), 0, 0], [1, 2, 2]] 1 0) =
       disp_norm (disp [[(0 : ℚ), 0, 0], [1, 2, 2]] 0 1) ∧
     0 ≤ disp_norm (disp [[(0 : ℚ), 0, 0], [1, 2, 2]] 0 1)) :=
  ⟨by decide,
    C10_edge_feature_antisymmetry [(0, 1)] [[(0 : ℚ), 0, 0], [1, 2, 2]] 0 1 (by decide)⟩

lemma foldl_add_eq_sum (f : α → ℚ) (l : List α) (a : ℚ) :
    l.foldl (fun acc x => acc + f x) a = a + (l.map f).sum := by
  induction l generalizing a with
  | nil => simp
  | cons x xs ih => simp [ih, add_assoc]

lemma sum_map_div (l : List ℚ) (b : ℚ) :
    (l.map (fun x => x / b)).sum = l.sum / b := by
  induction l with
  | nil => simp
  | cons x xs ih => simp [ih, add_div]

lemma sum_map_const_q (l : List α) (v : ℚ) :
    (l.map (fun _ => v)).sum = l.length * v := by
  induction l with
  | nil => simp
  | cons a as ih => simp [ih]; ring

lemma traj_mean_const (xs : List ℚ) (v : ℚ) (hne : xs ≠ [])
    (hv : ∀ x ∈ xs, x = v) : traj_mean xs = v := by
  rw [traj_mean, List.sum_eq_card_nsmul xs v hv, nsmul_eq_mul]
  have hlen : (xs.length : ℚ) ≠ 0 :=
    Nat.cast_ne_zero.mpr (Nat.pos_iff_ne_zero.mp (List.length_pos.mpr hne))
  exact mul_div_cancel_left₀ v hlen

lemma stats_mean_eq_sum_div (n : ℕ) (trajs : List (List ℚ)) :
    stats_mean n trajs = (trajs.map traj_mean).sum / n := by
  rw [stats_mean, foldl_add_eq_sum (fun xs => traj_mean xs / (n : ℚ)), zero_add]
  have hm : trajs.map (fun xs => traj_mean xs / (n : ℚ)) =
      (trajs.map traj_mean).map (fun x : ℚ => x / (n : ℚ)) := by
    rw [List.map_map]
    rfl
  rw [hm, sum_map_div]

lemma stats_mean_const (n : ℕ) (trajs : List (List ℚ)) (v : ℚ)
    (hcount : trajs.length = n) (hpos : 0 < n)
    (hne : ∀ xs ∈ trajs, xs ≠ []) (hv : ∀ xs ∈ trajs, ∀ x ∈ xs, x = v) :
    stats_mean n trajs = v := by
  rw [stats_mean_eq_sum_div]
  have hmap : trajs.map traj_mean = trajs.map (fun _ => v) :=
    List.map_congr_left (fun xs hxs => traj_mean_const xs v (hne xs hxs) (hv xs hxs))
  rw [hmap, sum_map_const_q, hcount]
  have hn : (n : ℚ) ≠ 0 := Nat.cast_ne_zero.mpr (Nat.pos_iff_ne_zero.mp hpos)
  field_simp

lemma stats_meansqr_eq_mapped (n : ℕ) (trajs : List (List ℚ)) :
    stats_meansqr n trajs =
      stats_mean n (trajs.map (fun xs => xs.map (fun x => x ^ 2))) := by
  rw [stats_meansqr, stats_mean, List.foldl_map]

/-- C1: for every list of trajectories, unconditionally, the accumulation
loop of the statistics engine computes the mean as the sum of
per-trajectory means divided by num_samples and the mean of squares as
the sum of per-trajectory means of squares divided by num_samples (each
trajectory averaged over its own (timestep, node) elements and weighted
equally, not a global per-element mean), and the standard deviation as
sqrt(meansqr - mean squared); in particular, for num_samples trajectories
whose values all equal a constant v, the computed mean is exactly v, the
variance expression meansqr - mean^2 is exactly 0, and the standard
deviation is exactly 0. -/
theorem C1_streaming_statistics (num_samples : ℕ) (trajs : List (List ℚ)) (v : ℚ) :
    stats_mean num_samples trajs = (trajs.map traj_mean).sum / num_samples ∧
    stats_meansqr num_samples trajs =
      (trajs.map (fun xs => traj_mean (xs.map (fun x => x ^ 2)))).sum / num_samples ∧
    stats_std num_samples trajs =
      Real.sqrt ((stats_meansqr num_samples trajs : ℝ) -
        (stats_mean num_samples trajs : ℝ) ^ 2) ∧
    (trajs.length = num_samples → 0 < num_samples →
      (∀ xs ∈ trajs, xs ≠ []) → (∀ xs ∈ trajs, ∀ x ∈ xs, x = v) →
      stats_mean num_samples trajs = v ∧
      stats_var num_samples trajs = 0 ∧
      stats_std num_samples trajs = 0) := by
  refine ⟨stats_mean_eq_sum_div num_samples trajs, ?_, ?_, ?_⟩
  · rw [stats_meansqr_eq_mapped, stats_mean_eq_sum_div, List.map_map]
    rfl
  · rw [stats_std, stats_var]
    push_cast
    rfl
  · intro hcount hpos hne hv
    have hmean : stats_mean num_samples trajs = v :=
      stats_mean_const num_samples trajs v hcount hpos hne hv
    have hsqr : stats_meansqr num_samples trajs = v ^ 2 := by
      rw [stats_meansqr_eq_mapped]
      apply stats_mean_const
      · simpa using hcount
      · exact hpos
      · intro xs hxs
        obtain ⟨ys, hys, rfl⟩ := List.mem_map.mp hxs
        simpa using hne ys hys
      · intro xs hxs x hx
        obtain ⟨ys, hys, rfl⟩ := List.mem_map.mp hxs
        obtain ⟨y, hy, rfl⟩ := List.mem_map.mp hx
        rw [hv ys hys y hy]
    have hvar : stats_var num_samples trajs = 0 := by
      rw [stats_var, hmean, hsqr, sub_self]
    refine ⟨hmean, hvar, ?_⟩
    rw [stats_std, hvar]
    simp

/-- Witness for C1 at two constant trajectories of different lengths with
value 3: the general weighting identity instantiated there, and the
constant-data conclusions with the hypotheses of the inner implication
discharged concretely. -/
theorem C1_streaming_statistics_witness :
    (stats_mean 2 [[(3 : ℚ)], [3, 3]] =
      (([[(3 : ℚ)], [3, 3]]).map traj_mean).sum / 2) ∧
    (stats_mean 2 [[(3 : ℚ)], [3, 3]] = 3 ∧
     stats_var 2 [[(3 : ℚ)], [3, 3]] = 0 ∧
     stats_std 2 [[(3 : ℚ)], [3, 3]] = 0) :=
  ⟨(C1_streaming_statistics 2 [[(3 : ℚ)], [3, 3]] 3).1,
    (C1_streaming_statistics 2 [[(3 : ℚ)], [3, 3]] 3).2.2.2 rfl (by norm_num)
      (by simp) (by intro xs hxs x hx; fin_cases hxs <;> fin_cases hx <;>
        norm_num)⟩

lemma pyGet_ofNat (xs : List α) (n : ℕ) : pyGet xs (n : ℤ) = xs.get? n := by
  simp [pyGet]

lemma pyGet_neg (xs : List α) (i : ℤ) (h1 : i < 0) (h2 : 0 ≤ i + xs.length) :
    pyGet xs i = xs.get? (i + xs.length).toNat := by
  rw [pyGet, if_neg (by omega), if_pos h2]

lemma pyGet_none_of_len_le (xs : List α) (i : ℤ) (h : (xs.length : ℤ) ≤ i) :
    pyGet xs i = none := by
  rw [pyGet, if_pos (by omega)]
  exact List.get?_eq_none.mpr (by omega)

lemma pyGet_none_of_add_neg (xs : List α) (i : ℤ) (h : i + xs.length < 0) :
    pyGet xs i = none := by
  rw [pyGet, if_neg (by omega), if_neg (by omega)]

lemma pyGet_shift (xs : List α) (i : ℤ) (h1 : i < 0) (h2 : 0 ≤ i + xs.length) :
    pyGet xs i = pyGet xs (i + xs.length) := by
  rw [pyGet_neg xs i h1 h2, pyGet, if_pos h2]

lemma resolve_ofNat (num_steps : ℕ) (m : ℕ) (hns : 2 ≤ num_steps) :
    resolve num_steps (m : ℤ) =
      (((m / (num_steps - 1) : ℕ) : ℤ), ((m % (num_steps - 1) : ℕ) : ℤ)) := by
  unfold resolve
  have hcast : ((num_steps : ℤ) - 1) = ((num_steps - 1 : ℕ) : ℤ) := by omega
  rw [hcast, Int.ofNat_ediv, Int.ofNat_emod]

lemma getItem_eq_assemble (d : Dataset) (idx : ℤ) (h0 : 0 ≤ idx)
    (hns : 2 ≤ d.num_steps) :
    getItem d idx =
      assemble d (idx.toNat / (d.num_steps - 1)) (idx.toNat % (d.num_steps - 1)) := by
  obtain ⟨m, rfl⟩ : ∃ m : ℕ, idx = (m : ℤ) := ⟨idx.toNat, (Int.toNat_of_nonneg h0).symm⟩
  rw [getItem, assemble, resolve_ofNat d.num_steps m hns]
  simp only [Int.toNat_natCast, pyGet_ofNat]

lemma getD_mem (l : List α) (n : ℕ) (x : α) (h : n < l.length) :
    l.getD n x ∈ l := by
  simp only [List.getD_eq_getElem?_getD, List.getElem?_eq_getElem h, Option.getD_some]
  exact List.getElem_mem h

lemma assemble_eq (d : Dataset) (g t : ℕ) (hwf : WF d)
    (hg : g < d.num_samples) (ht : t < d.num_steps - 1) :
    assemble d g t =
      if d.split = "train" then some (Sample.trainSample (sample_graph d g t))
      else
        some (Sample.evalSample
          { sample_graph d g t with ndata_mesh_pos := some (d.mesh_pos.getD g []) }
          (d.cells.getD g []) (d.rollout_mask.getD g [])) := by
  obtain ⟨h1, h2, h3, h4, h5, h6, h7, h8, h9⟩ := hwf
  have hb1 : d.graphs.get? g = some (d.graphs.getD g default_graph) :=
    get?_eq_some_getD _ _ _ (by omega)
  have hb2 : d.node_features_world_pos.get? g =
      some (d.node_features_world_pos.getD g []) := get?_eq_some_getD _ _ _ (by omega)
  have hb3 : d.node_type.get? g = some (d.node_type.getD g []) :=
    get?_eq_some_getD _ _ _ (by omega)
  have hb4 : d.node_targets_world_pos.get? g =
      some (d.node_targets_world_pos.getD g []) := get?_eq_some_getD _ _ _ (by omega)
  have hb5 : d.node_targets_stress.get? g =
      some (d.node_targets_stress.getD g []) := get?_eq_some_getD _ _ _ (by omega)
  have hf : (d.node_features_world_pos.getD g []).get? t =
      some ((d.node_features_world_pos.getD g []).getD t []) :=
    get?_eq_some_getD _ _ _ (by rw [h7 _ (getD_mem _ _ _ (by omega))]; omega)
  have hw : (d.node_targets_world_pos.getD g []).get? t =
      some ((d.node_targets_world_pos.getD g []).getD t []) :=
    get?_eq_some_getD _ _ _ (by rw [h8 _ (getD_mem _ _ _ (by omega))]; omega)
  have hst : (d.node_targets_stress.getD g []).get? t =
      some ((d.node_targets_stress.getD g []).getD t []) :=
    get?_eq_some_getD _ _ _ (by rw [h9 _ (getD_mem _ _ _ (by omega))]; omega)
  by_cases hsplit : d.split = "train"
  · rw [if_pos hsplit, assemble]
    simp only [hb1, hb2, hb3, hb4, hb5, hf, hw, hst, Option.bind_eq_bind,
      Option.some_bind, Option.pure_def, hsplit, eq_self_iff_true, if_true,
      sample_graph]
  · obtain ⟨hm, hc, hr⟩ := h6 hsplit
    have hbm : d.mesh_pos.get? g = some (d.mesh_pos.getD g []) :=
      get?_eq_some_getD _ _ _ (by omega)
    have hbc : d.cells.get? g = some (d.cells.getD g []) :=
      get?_eq_some_getD _ _ _ (by omega)
    have hbr : d.rollout_mask.get? g = some (d.rollout_mask.getD g []) :=
      get?_eq_some_getD _ _ _ (by omega)
    rw [if_neg hsplit, assemble]
    simp only [hb1, hb2, hb3, hb4, hb5, hf, hw, hst, hbm, hbc, hbr,
      Option.bind_eq_bind, Option.some_bind, Option.pure_def, hsplit,
      if_false, sample_graph]

lemma assemble_isSome (d : Dataset) (g t : ℕ) (hwf : WF d)
    (hg : g < d.num_samples) (ht : t < d.num_steps - 1) :
    (assemble d g t).isSome = true := by
  rw [assemble_eq d g t hwf hg ht]
  split_ifs <;> rfl

lemma resolve_bounds (d : Dataset) (idx : ℤ) (hns : 2 ≤ d.num_steps)
    (h0 : 0 ≤ idx) (hlt : idx < (len d : ℤ)) :
    idx.toNat / (d.num_steps - 1) < d.num_samples ∧
    idx.toNat % (d.num_steps - 1) < d.num_steps - 1 := by
  have hpos : 0 < d.num_steps - 1 := by omega
  constructor
  · apply (Nat.div_lt_iff_lt_mul hpos).mpr
    have hidx : idx.toNat < len d := by omega
    rw [len, dataset_length] at hidx
    exact hidx
  · exact Nat.mod_lt _ hpos

/-- C2: the dataset length is num_samples times (num_steps - 1); an
in-range flat index is resolved with floor division and remainder by
num_steps - 1 to a trajectory index and a local step index (getItem
coincides with the reference lookup at those indices and succeeds); and
concretely, with num_samples = 3 and num_steps = 5 the length is 12,
index 7 resolves to trajectory 1, step 3, and index 11 resolves to
trajectory 2, step 3. -/
theorem C2_sample_indexer (d : Dataset) (idx : ℤ) (hwf : WF d)
    (hns : 2 ≤ d.num_steps) (h0 : 0 ≤ idx) (hlt : idx < (len d : ℤ)) :
    len d = d.num_samples * (d.num_steps - 1) ∧
    getItem d idx =
      assemble d (idx.toNat / (d.num_steps - 1)) (idx.toNat % (d.num_steps - 1)) ∧
    (getItem d idx).isSome = true ∧
    dataset_length 3 5 = 12 ∧
    resolve 5 7 = (1, 3) ∧ resolve 5 11 = (2, 3) := by
  obtain ⟨hdiv, hmod⟩ := resolve_bounds d idx hns h0 hlt
  refine ⟨rfl, getItem_eq_assemble d idx h0 hns, ?_, by decide, by decide, by decide⟩
  rw [getItem_eq_assemble d idx h0 hns]
  exact assemble_isSome d _ _ hwf hdiv hmod

/-- Witness for C2 at the concrete train dataset and index 0. -/
theorem C2_sample_indexer_witness :
    WF dtest ∧ (0 : ℤ) < (len dtest : ℤ) ∧
    (getItem dtest 0).isSome = true ∧ resolve 5 7 = (1, 3) :=
  ⟨by decide, by decide,
    (C2_sample_indexer dtest 0 (by decide) (by decide) (by decide) (by decide)).2.2.1,
    (C2_sample_indexer dtest 0 (by decide) (by decide) (by decide)
      (by decide)).2.2.2.2.1⟩

lemma len_cast (d : Dataset) (hns : 2 ≤ d.num_steps) :
    (len d : ℤ) = (d.num_samples : ℤ) * ((d.num_steps : ℤ) - 1) := by
  rw [len, dataset_length, Nat.cast_mul]
  congr 1
  omega

lemma getItem_shift (d : Dataset) (idx : ℤ) (hwf : WF d) (hns : 2 ≤ d.num_steps)
    (h1 : -(len d : ℤ) ≤ idx) (h2 : idx < 0) :
    getItem d idx = getItem d (idx + (len d : ℤ)) := by
  obtain ⟨hg1, hg2, hg3, hg4, hg5, hg6, _, _, _⟩ := hwf
  have hn1 : (0 : ℤ) < (d.num_steps : ℤ) - 1 := by omega
  have hL := len_cast d hns
  have hgneg : (resolve d.num_steps idx).1 < 0 := Int.ediv_neg' h2 hn1
  have hgge : -(d.num_samples : ℤ) ≤ (resolve d.num_steps idx).1 := by
    apply (Int.le_ediv_iff_mul_le hn1).mpr
    rw [neg_mul, ← hL]
    exact h1
  have hr1 : (resolve d.num_steps (idx + (len d : ℤ))).1 =
      (resolve d.num_steps idx).1 + (d.num_samples : ℤ) := by
    unfold resolve
    simp only
    rw [hL, Int.add_mul_ediv_right _ _ (by omega : ((d.num_steps : ℤ) - 1) ≠ 0)]
  have hr2 : (resolve d.num_steps (idx + (len d : ℤ))).2 =
      (resolve d.num_steps idx).2 := by
    unfold resolve
    simp only
    rw [hL, Int.add_mul_emod_self]
  have hshift : ∀ {β : Type} (xs : List β), xs.length = d.num_samples →
      pyGet xs (resolve d.num_steps idx).1 =
        pyGet xs ((resolve d.num_steps idx).1 + (d.num_samples : ℤ)) := by
    intro β xs hlen
    have h := pyGet_shift xs (resolve d.num_steps idx).1 hgneg
      (by rw [hlen]; omega)
    rwa [hlen] at h
  by_cases hsplit : d.split = "train"
  · rw [getItem, getItem]
    simp only [hr1, hr2, hsplit, eq_self_iff_true, if_true,
      hshift d.graphs hg1, hshift d.node_features_world_pos hg2,
      hshift d.node_type hg3, hshift d.node_targets_world_pos hg4,
      hshift d.node_targets_stress hg5]
  · obtain ⟨hm, hc, hr⟩ := hg6 hsplit
    rw [getItem, getItem]
    simp only [hr1, hr2, hsplit, if_false,
      hshift d.graphs hg1, hshift d.node_features_world_pos hg2,
      hshift d.node_type hg3, hshift d.node_targets_world_pos hg4,
      hshift d.node_targets_stress hg5, hshift d.mesh_pos hm,
      hshift d.cells hc, hshift d.rollout_mask hr]

/-- C9: writing L for num_samples times (num_steps - 1), getitem accepts
exactly the flat indices in the interval from -L inclusive to L exclusive:
a negative in-range index yields the same sample as that index plus L
(Python floor division and modulo wrap it onto the same trajectory and
step), while an index at or beyond L, or below -L, raises an IndexError
instead of wrapping. -/
theorem C9_index_domain (d : Dataset) (idx : ℤ) (hwf : WF d)
    (hns : 2 ≤ d.num_steps) :
    (-(len d : ℤ) ≤ idx → idx < 0 →
      getItem d idx = getItem d (idx + (len d : ℤ)) ∧
      (getItem d idx).isSome = true) ∧
    ((len d : ℤ) ≤ idx → getItem d idx = none) ∧
    (idx < -(len d : ℤ) → getItem d idx = none) := by
  have hn1 : (0 : ℤ) < (d.num_steps : ℤ) - 1 := by omega
  have hL := len_cast d hns
  refine ⟨?_, ?_, ?_⟩
  · intro h1 h2
    have heq := getItem_shift d idx hwf hns h1 h2
    refine ⟨heq, ?_⟩
    rw [heq, getItem_eq_assemble d (idx + (len d : ℤ)) (by omega) hns]
    obtain ⟨hdiv, hmod⟩ := resolve_bounds d (idx + (len d : ℤ)) hns (by omega)
      (by omega)
    exact assemble_isSome d _ _ hwf hdiv hmod
  · intro h
    have hge : (d.num_samples : ℤ) ≤ (resolve d.num_steps idx).1 := by
      apply (Int.le_ediv_iff_mul_le hn1).mpr
      rw [← hL]
      exact h
    have hnone : pyGet d.graphs (resolve d.num_steps idx).1 = none := by
      apply pyGet_none_of_len_le
      rw [hwf.1]
      exact hge
    rw [getItem]
    simp only [hnone, Option.bind_eq_bind, Option.none_bind]
  · intro h
    have hlt : (resolve d.num_steps idx).1 < -(d.num_samples : ℤ) := by
      apply (Int.ediv_lt_iff_lt_mul hn1).mpr
      rw [neg_mul, ← hL]
      exact h
    have hnone : pyGet d.graphs (resolve d.num_steps idx).1 = none := by
      apply pyGet_none_of_add_neg
      rw [hwf.1]
      omega
    rw [getItem]
    simp only [hnone, Option.bind_eq_bind, Option.none_bind]

/-- Witness for C9 at the concrete train dataset, index -1 against index
0, and out-of-range indices 1 and -2. -/
theorem C9_index_domain_witness :
    WF dtest ∧
    (getItem dtest (-1) = getItem dtest (-1 + (len dtest : ℤ)) ∧
      (getItem dtest (-1)).isSome = true) ∧
    getItem dtest 1 = none ∧
    getItem dtest (-2) = none :=
  ⟨by decide,
    (C9_index_domain dtest (-1) (by decide) (by decide)).1 (by decide) (by decide),
    (C9_index_domain dtest 1 (by decide) (by decide)).2.1 (by decide),
    (C9_index_domain dtest (-2) (by decide) (by decide)).2.2 (by decide)⟩

lemma getD_map_of_lt {f : α → β} (l : List α) (n : ℕ) (x : α) (y : β)
    (h : n < l.length) : (l.map f).getD n y = f (l.getD n x) := by
  rw [List.getD_eq_getElem?_getD, List.getD_eq_getElem?_getD, List.getElem?_map,
    List.getElem?_eq_getElem h]
  rfl

/-- C8: on the train split, a valid index lookup returns a bare graph
object carrying the per-sample node inputs and targets; on any other
split it returns a (graph, cells, rollout mask) triple in which the graph
additionally carries the raw mesh positions, and the rollout mask at node
i is true exactly when the raw type code of that node is 0 or 1. -/
theorem C8_split_output (d : Dataset) (idx : ℤ) (hwf : WF d)
    (hns : 2 ≤ d.num_steps) (h0 : 0 ≤ idx) (hlt : idx < (len d : ℤ))
    (hraw : d.raw_node_type.length = d.num_samples)
    (hmask : d.split ≠ "train" →
      d.rollout_mask = d.raw_node_type.map _get_rollout_mask) :
    (d.split = "train" →
      getItem d idx = some (Sample.trainSample
        (sample_graph d (idx.toNat / (d.num_steps - 1))
          (idx.toNat % (d.num_steps - 1))))) ∧
    (d.split ≠ "train" →
      getItem d idx = some (Sample.evalSample
        { sample_graph d (idx.toNat / (d.num_steps - 1))
            (idx.toNat % (d.num_steps - 1)) with
          ndata_mesh_pos :=
            some (d.mesh_pos.getD (idx.toNat / (d.num_steps - 1)) []) }
        (d.cells.getD (idx.toNat / (d.num_steps - 1)) [])
        (_get_rollout_mask
          (d.raw_node_type.getD (idx.toNat / (d.num_steps - 1)) [])))) ∧
    (∀ (codes : List ℕ) (i c : ℕ), codes.get? i = some c →
      (_get_rollout_mask codes).get? i = some (decide (c = 0 ∨ c = 1))) := by
  obtain ⟨hdiv, hmod⟩ := resolve_bounds d idx hns h0 hlt
  have hbase := (getItem_eq_assemble d idx h0 hns).trans
    (assemble_eq d _ _ hwf hdiv hmod)
  refine ⟨?_, ?_, ?_⟩
  · intro hsplit
    rw [hbase, if_pos hsplit]
  · intro hsplit
    rw [hbase, if_neg hsplit, hmask hsplit,
      getD_map_of_lt d.raw_node_type _ [] [] (by omega)]
  · intro codes i c hc
    rw [List.get?_eq_getElem?] at hc
    rw [_get_rollout_mask, List.get?_eq_getElem?, List.getElem?_map, hc]
    simp [Bool.decide_or]

/-- Witness for C8 at the train dataset and the eval dataset, index 0. -/
theorem C8_split_output_witness :
    dtest.split = "train" ∧ dtest_eval.split ≠ "train" ∧
    getItem dtest 0 = some (Sample.trainSample (sample_graph dtest 0 0)) ∧
    getItem dtest_eval 0 = some (Sample.evalSample
      { sample_graph dtest_eval 0 0 with
        ndata_mesh_pos := some (dtest_eval.mesh_pos.getD 0 []) }
      (dtest_eval.cells.getD 0 [])
      (_get_rollout_mask (dtest_eval.raw_node_type.getD 0 []))) :=
  ⟨rfl, by decide,
    (C8_split_output dtest 0 (by decide) (by decide) (by decide) (by decide)
      (by decide) (by decide)).1 rfl,
    (C8_split_output dtest_eval 0 (by decide) (by decide) (by decide) (by decide)
      (by decide) (by decide)).2.1 (by decide)⟩

end DPD
